import Mathlib

/-!
Verification of the Doxygen2Markdown pipeline (package dox_md) against its
natural-language specification.

The Python modules are shallowly embedded:
- XML elements from xml.etree.ElementTree become the inductive Elem;
- class_reader.py becomes readClassDoc and its helpers;
- documentation.py (the Markdown renderer) becomes writeClass and helpers,
  with the stream modeled as the list of strings handed to the underlying
  write-line primitive, in order;
- xml_processor.py (the pipeline driver) becomes processXmlFiles;
- markdown_writer.py gives the output-handle discipline (withNewFile) and the
  sentence reflow of write_paragraph (reflow);
- Python exceptions (AttributeError, KeyError, RuntimeError, and the custom
  MissingTag / MissingValue) become the error type PyErr, and fallible code
  returns Except PyErr.
-/

/-- Python exceptions that the embedded code can raise. MissingTag and
MissingValue are the custom exceptions of class_reader.py and
xml_processor.py; the others are builtin Python exceptions. -/
inductive PyErr where
  | attributeError (attr : String)
  | keyError (key : String)
  | missingTag (tag file : String)
  | missingValue (tag file : String)
  | runtimeError (msg : String)
deriving DecidableEq, Repr

/-- An XML element as exposed by xml.etree.ElementTree: a tag name, an
attribute dictionary, optional text, and the child elements in document
order. -/
inductive Elem where
  | mk (tag : String) (attrs : List (String × String)) (text : Option String)
      (children : List Elem)

def Elem.tag : Elem → String
  | .mk t _ _ _ => t

def Elem.attrs : Elem → List (String × String)
  | .mk _ a _ _ => a

def Elem.text : Elem → Option String
  | .mk _ _ t _ => t

def Elem.children : Elem → List Elem
  | .mk _ _ _ c => c

/-- Python dictionary lookup element.attrib[key]: raises KeyError when the
key is absent. -/
def Elem.getAttr (e : Elem) (key : String) : Except PyErr String :=
  match e.attrs.lookup key with
  | some v => .ok v
  | none => .error (.keyError key)

/-- ElementTree Element.find: the first child with the given tag, if any. -/
def Elem.findChild (e : Elem) (t : String) : Option Elem :=
  e.children.find? (fun c => c.tag == t)

/-- Python str.isspace for the ASCII whitespace characters that can occur
in the embedded inputs. -/
def isPySpace (c : Char) : Bool :=
  c = ' ' || c = '\t' || c = '\n' || c = '\r' || c = '\x0b' || c = '\x0c'

/-- Python str.strip(): drop whitespace from both ends. -/
def pyStrip (s : String) : String :=
  ⟨((s.data.dropWhile isPySpace).reverse.dropWhile isPySpace).reverse⟩

/-- class_reader._find_text: Element.findtext returns the text of the first
matching child (empty string when the child has no text) or None when there
is no such child; _find_text maps None to the empty string and strips. -/
def findText (e : Elem) (childTag : String) : String :=
  match e.findChild childTag with
  | none => ""
  | some c => pyStrip (c.text.getD "")

/-- class_reader.Member with its two concrete subclasses Function and
Variable, as a sum. Function carries the argsstring, Variable the
initializer. -/
inductive Member where
  | function (type name brief arguments : String)
  | var (type name brief value : String)
deriving DecidableEq, Repr

def Member.type : Member → String
  | .function t _ _ _ => t
  | .var t _ _ _ => t

def Member.name : Member → String
  | .function _ n _ _ => n
  | .var _ n _ _ => n

def Member.brief : Member → String
  | .function _ _ b _ => b
  | .var _ _ b _ => b

def Member.isFunction : Member → Bool
  | .function _ _ _ _ => true
  | .var _ _ _ _ => false

def Member.isVar : Member → Bool
  | .function _ _ _ _ => false
  | .var _ _ _ _ => true

/-- Python attribute access member.value: only Variable defines the field,
so reading it on a Function raises AttributeError. -/
def Member.valueAttr : Member → Except PyErr String
  | .var _ _ _ v => .ok v
  | .function _ _ _ _ => .error (.attributeError "value")

/-- The initializer value of a Variable; empty for a Function. Used only to
state theorems about rows of all-Variable sections. -/
def Member.valueD : Member → String
  | .var _ _ _ v => v
  | .function _ _ _ _ => ""

/-- A parameter-documentation entry as the renderer expects it. No class of
class_reader.py carries such entries. -/
structure ParamDetail where
  name : String
  docText : String
deriving DecidableEq, Repr

/-- Python attribute access member.parameters in
documentation._write_function_details: neither Member nor Function defines a
field of that name, so the access raises AttributeError. -/
def Member.parametersAttr : Member → Except PyErr String :=
  fun _ => .error (.attributeError "parameters")

/-- Python attribute access member.parameter_details: no such field exists
on any Member, so the access raises AttributeError. -/
def Member.parameterDetailsAttr : Member → Except PyErr (List ParamDetail) :=
  fun _ => .error (.attributeError "parameter_details")

/-- Python attribute access member.details: no such field exists on any
Member, so the access raises AttributeError. -/
def Member.detailsAttr : Member → Except PyErr String :=
  fun _ => .error (.attributeError "details")

/-- class_reader.Section.__read_name: the fixed kind-to-title mapping, with
unrecognized kinds mapped to the empty title. -/
def sectionDisplayName (kind : String) : String :=
  if kind == "public-func" then "Public Member Functions"
  else if kind == "public-static-attrib" then "Static Public Attributes"
  else if kind == "public-static-func" then "Static Public Member Functions"
  else ""

/-- class_reader.Section: a display name and the members in document
order. -/
structure Section where
  name : String
  members : List Member
deriving DecidableEq, Repr

/-- One member child of a sectiondef block: reads the kind attribute
(KeyError when absent), builds a Function or Variable member, and yields
none for any other kind (the child is skipped with a warning). -/
def parseMember (child : Elem) : Except PyErr (Option Member) := do
  let kind ← child.getAttr "kind"
  if kind == "function" then
    pure (some (.function (findText child "type") (findText child "name")
      (findText child "briefdescription") (findText child "argsstring")))
  else if kind == "variable" then
    pure (some (.var (findText child "type") (findText child "name")
      (findText child "briefdescription") (findText child "initializer")))
  else
    pure none

/-- class_reader.Section.__init__: title from the kind attribute, then the
member children in document order, skipped children excluded. -/
def parseSection (tag : Elem) : Except PyErr Section := do
  let kind ← tag.getAttr "kind"
  let opts ← tag.children.mapM parseMember
  pure ⟨sectionDisplayName kind, opts.reduceOption⟩

/-- Python str.replace(old, new) with new fixed to the empty string: remove
every non-overlapping occurrence of old, scanning left to right; the empty
old leaves the string unchanged. -/
def removeAll (pat : List Char) (s : List Char) : List Char :=
  if h : pat = [] then s
  else
    match s with
    | [] => []
    | c :: cs =>
      if pat.isPrefixOf (c :: cs) then removeAll pat ((c :: cs).drop pat.length)
      else c :: removeAll pat cs
termination_by s.length
decreasing_by
  · simp only [List.length_drop]
    have : 0 < pat.length := List.length_pos.mpr h
    simp only [List.length_cons]
    omega
  · simp

/-- str.replace on String values, with the empty replacement, as used by
class_reader.ClassDocumentation.__get_location. -/
def pyReplace (s pat : String) : String :=
  ⟨removeAll pat.data s.data⟩

/-- class_reader.ClassDocumentation.__get_detailed_description: concatenate
the stripped text of every para child that has truthy text, each followed by
a double line break, then strip the result. -/
def getDetailedDescription (tag : Elem) : String :=
  pyStrip ((tag.children.filter (fun c => c.tag == "para")).foldl
    (fun acc c =>
      match c.text with
      | some t => if t == "" then acc else acc ++ pyStrip t ++ "\n\n"
      | none => acc) "")

/-- The in-memory result of class_reader.ClassDocumentation.__init__. A
field holding none models a Python attribute that was never assigned
(reading it raises AttributeError); brief is doubly optional because
self.brief can itself be assigned None when the tag has no text. -/
structure ClassDoc where
  filePath : String
  headerSearchPath : String
  kind : String
  language : String
  nameAttr : Option String := none
  briefAttr : Option (Option String) := none
  detailedAttr : Option String := none
  locationAttr : Option String := none
  sections : List Section := []
deriving DecidableEq, Repr

/-- Python attribute access docs.name (AttributeError when never
assigned). -/
def ClassDoc.nameFld (d : ClassDoc) : Except PyErr String :=
  match d.nameAttr with
  | some n => .ok n
  | none => .error (.attributeError "name")

/-- Python attribute access docs.brief. -/
def ClassDoc.briefFld (d : ClassDoc) : Except PyErr (Option String) :=
  match d.briefAttr with
  | some b => .ok b
  | none => .error (.attributeError "brief")

/-- Python attribute access docs.detailed. -/
def ClassDoc.detailedFld (d : ClassDoc) : Except PyErr String :=
  match d.detailedAttr with
  | some t => .ok t
  | none => .error (.attributeError "detailed")

/-- Python attribute access docs.location. -/
def ClassDoc.locationFld (d : ClassDoc) : Except PyErr String :=
  match d.locationAttr with
  | some t => .ok t
  | none => .error (.attributeError "location")

/-- One iteration of the tag loop in
class_reader.ClassDocumentation.__init__, dispatching on the tag name. A
compoundname tag with no text raises MissingValue; a location tag without a
file attribute raises KeyError; unrecognized tags are skipped with a
warning. -/
def processTag (fp hsp : String) (d : ClassDoc) (tag : Elem) :
    Except PyErr ClassDoc :=
  if tag.tag == "briefdescription" then
    pure { d with briefAttr := some (tag.text.map pyStrip) }
  else if tag.tag == "compoundname" then
    match tag.text with
    | none => .error (.missingValue "compoundname" fp)
    | some t => pure { d with nameAttr := some t }
  else if tag.tag == "detaileddescription" then
    pure { d with detailedAttr := some (getDetailedDescription tag) }
  else if tag.tag == "location" then do
    let f ← tag.getAttr "file"
    pure { d with locationAttr := some (pyReplace f hsp) }
  else if tag.tag == "sectiondef" then do
    let s ← parseSection tag
    pure { d with sections := d.sections ++ [s] }
  else
    pure d

/-- Stable insertion of a section into a sorted list, placing the inserted
section before any section whose name is not smaller; together with
sortSections this models the observable behavior of Python list.sort (a
stable sort driven by Section.__lt__, which compares names with the
case-sensitive ordinal string order, here the lexicographic order on the
character lists by code point). -/
def insertSec (s : Section) : List Section → List Section
  | [] => [s]
  | t :: ts =>
    if t.name.data < s.name.data then t :: insertSec s ts else s :: t :: ts

/-- The stable sort self.sections.sort() at the end of
class_reader.ClassDocumentation.__init__. -/
def sortSections : List Section → List Section
  | [] => []
  | s :: ss => insertSec s (sortSections ss)

/-- class_reader.ClassDocumentation.__init__: find the compounddef root
(MissingTag when absent), read the kind and language attributes, fold the
tag loop over the root children in document order, then sort the collected
sections. A record whose compounddef has no compoundname child completes
without error, leaving the name attribute unassigned. -/
def readClassDoc (fp hsp : String) (tree : Elem) : Except PyErr ClassDoc :=
  match tree.findChild "compounddef" with
  | none => .error (.missingTag "compounddef" fp)
  | some root => do
    let kind ← root.getAttr "kind"
    let language ← root.getAttr "language"
    let d ← root.children.foldlM (processTag fp hsp)
      { filePath := fp, headerSearchPath := hsp, kind := kind,
        language := language }
    pure { d with sections := sortSections d.sections }

/-- One step of collecting parsed sections in document order. -/
def secStep (acc : List Section) (c : Elem) : Except PyErr (List Section) :=
  if c.tag == "sectiondef" then do
    let s ← parseSection c
    pure (acc ++ [s])
  else pure acc

/-- The sections collected by the tag loop, in document order, before the
final sort. -/
def secResults (cs : List Elem) : Except PyErr (List Section) :=
  cs.foldlM secStep []

/-- markdown.File.write_heading payload: hash marks, a space, the heading,
and an embedded line break (the write primitive adds the final one). -/
def headingLine (level : Nat) (heading : String) : String :=
  String.mk (List.replicate level '#') ++ " " ++ heading ++ "\n"

/-- markdown.File.write_image payload. -/
def imageLine (altText imagePath : String) : String :=
  "![" ++ altText ++ "](" ++ imagePath ++ ")"

/-- documentation._write_badges: the two fixed shields.io badges. -/
def badgesLines : List String :=
  [imageLine "Language C++" "https://img.shields.io/badge/Language-C%2B%2B-blue",
   imageLine "Language C++" "https://img.shields.io/badge/Kind-Class-blue"]

/-- markdown.Table.write_row payload: cells joined with pipes. -/
def tableRowLine (cells : List String) : String :=
  "|" ++ String.intercalate "|" cells ++ "|"

/-- markdown.Table construction for a two-column left-aligned table: header
row and alignment row. -/
def tableHeaderLines (left : String) : List String :=
  [tableRowLine [left, "Description"], tableRowLine [":--", ":--"]]

/-- markdown.CodeBlock around a single line of code: the opening fence with
the language, the code line, and the closing fence with its embedded blank
line. -/
def codeBlockLines (language : String) (code : String) : List String :=
  ["```" ++ language, code, "```\n"]

/-- One step of the first loop of documentation._combine_brief_section:
append the member name when it is truthy and not yet collected. -/
def dedupStep (names : List String) (m : Member) : List String :=
  if m.name ≠ "" ∧ m.name ∉ names then names ++ [m.name] else names

/-- The first loop of documentation._combine_brief_section: distinct truthy
member names in first-encountered order. -/
def dedupNames (members : List Member) : List String :=
  members.foldl dedupStep []

/-- The inner loop of documentation._combine_brief_section for one name:
start from the empty description and overwrite it with the brief of every
member of that name whose brief is truthy, so the last non-empty brief
wins. -/
def briefFor (members : List Member) (n : String) : String :=
  members.foldl (fun acc m => if m.name = n ∧ m.brief ≠ "" then m.brief else acc)
    ""

/-- documentation._combine_brief_section: one pair per distinct truthy name,
carrying the winning brief. -/
def combineBriefSection (members : List Member) : List (String × String) :=
  (dedupNames members).map (fun n => (n, briefFor members n))

/-- documentation._write_function_briefs: the Function/Description table
over the deduplicated pairs, each name back-tick quoted. -/
def writeFunctionBriefs (members : List Member) : List String :=
  tableHeaderLines "Function"
    ++ (combineBriefSection members).map
      (fun p => tableRowLine ["`" ++ p.1 ++ "`", p.2])
    ++ [""]

/-- One row of documentation._write_variable_briefs: reading member.value
raises AttributeError when the member is a Function. -/
def varRowCell (m : Member) : Except PyErr String := do
  let v ← m.valueAttr
  pure ("`" ++ m.type ++ " " ++ m.name ++ " " ++ v ++ "`")

/-- The row loop of documentation._write_variable_briefs: one row per
member, in order, no dedup; raises on the first Function member. -/
def varRows (members : List Member) : Except PyErr (List String) :=
  members.mapM (fun m => do
    let cell ← varRowCell m
    pure (tableRowLine [cell, m.brief]))

/-- documentation._write_variable_briefs: the Attribute/Description table
around the member rows. -/
def writeVariableBriefs (members : List Member) : Except PyErr (List String) := do
  let rows ← varRows members
  pure (tableHeaderLines "Attribute" ++ rows ++ [""])

/-- documentation._write_brief_section: nothing for an empty section;
otherwise the level-2 heading and a table chosen by the variant of the
first member. -/
def writeBriefSection (sec : Section) : Except PyErr (List String) :=
  match sec.members with
  | [] => pure []
  | m :: _ =>
    if m.isFunction then
      pure (headingLine 2 sec.name :: writeFunctionBriefs sec.members)
    else do
      let t ← writeVariableBriefs sec.members
      pure (headingLine 2 sec.name :: t)

/-- The body of the inner loop of documentation._write_function_details for
one matching member: the code block reads member.parameters, then the
parameter table reads member.parameter_details, then member.details — all
three accesses raise AttributeError because no Member carries those
fields. -/
def functionDetailFor (m : Member) : Except PyErr (List String) := do
  let params ← m.parametersAttr
  let cb := codeBlockLines "c++" (m.type ++ " " ++ m.name ++ " " ++ params)
  let pd ← m.parameterDetailsAttr
  let pdLines := if pd.isEmpty then []
    else tableHeaderLines "Parameter"
      ++ pd.map (fun p => tableRowLine [p.name, p.docText]) ++ [""]
  let det ← m.detailsAttr
  let detLines := if det ≠ "" then [det] else []
  pure (cb ++ pdLines ++ detLines)

/-- documentation._write_function_details: for every deduplicated name, a
level-3 heading and the detail blocks of every member of that name, in
document order. -/
def writeFunctionDetails (sec : Section) (className : String) :
    Except PyErr (List String) := do
  let groups ← (combineBriefSection sec.members).mapM (fun entry => do
    let inner ← (sec.members.filter (fun m => m.name == entry.1)).mapM
      functionDetailFor
    pure (headingLine 3 ("`" ++ className ++ "::" ++ entry.1 ++ "`")
      :: inner.flatten))
  pure groups.flatten

/-- documentation._write_detailed_section: detail subsections only when the
first member is a Function; a section whose first member is a Variable is
skipped with a warning and emits nothing. -/
def writeDetailedSection (sec : Section) (className : String) :
    Except PyErr (List String) :=
  match sec.members with
  | [] => pure []
  | m :: _ =>
    if m.isFunction then writeFunctionDetails sec className
    else pure []

/-- documentation.Documentation.write_class, with the stream modeled as the
ordered list of write payloads: the docs.name access for the file path, the
level-1 heading, the badges, a blank line, the include code block (reading
docs.location), the brief paragraph when truthy (reading docs.brief), the
per-section brief tables, the detailed description when truthy (reading
docs.detailed), and the per-section detail subsections. -/
def writeClass (d : ClassDoc) : Except PyErr (List String) := do
  let name ← d.nameFld
  let loc ← d.locationFld
  let briefVal ← d.briefFld
  let briefLines := match briefVal with
    | some t => if t ≠ "" then [t] else []
    | none => []
  let briefSecs ← d.sections.mapM writeBriefSection
  let det ← d.detailedFld
  let detLines := if det ≠ "" then [headingLine 2 "Detailed Description", det, ""]
    else []
  let detSecs ← d.sections.mapM (fun s => writeDetailedSection s name)
  pure ([headingLine 1 ("`" ++ name ++ "`")] ++ badgesLines ++ [""]
    ++ codeBlockLines "c++" ("#include <" ++ loc ++ ">")
    ++ briefLines ++ briefSecs.flatten ++ detLines ++ detSecs.flatten)

/-- xml_processor.ClassDocumentation: the driver-local reader that only
extracts the class name; a record with compounddef but no compoundname
child completes with the name attribute unassigned. -/
structure XPDoc where
  filePath : String
  nameAttr : Option String := none
deriving DecidableEq, Repr

/-- Python attribute access class_doc.name on the driver-local reader
result. -/
def XPDoc.nameFld (d : XPDoc) : Except PyErr String :=
  match d.nameAttr with
  | some n => .ok n
  | none => .error (.attributeError "name")

/-- xml_processor.ClassDocumentation.__init__: find compounddef (MissingTag
when absent), then scan the children for compoundname (MissingValue when it
has no text). -/
def xpReadClassDoc (fp : String) (tree : Elem) : Except PyErr XPDoc :=
  match tree.findChild "compounddef" with
  | none => .error (.missingTag "compounddef" fp)
  | some root =>
    root.children.foldlM (fun d tag =>
      if tag.tag == "compoundname" then
        match tag.text with
        | none => .error (.missingValue "compoundname" fp)
        | some t => pure { d with nameAttr := some t }
      else pure d) { filePath := fp }

/-- The state of markdown_writer.Writer: how many output files are
currently open for writing (self.file holds at most one handle; the count
lets the at-most-one discipline be stated rather than assumed). -/
structure WState where
  openCount : Nat
deriving DecidableEq, Repr

/-- markdown_writer.Writer.__enter__: raise RuntimeError when a file is
already open, otherwise open the output file. -/
def writerEnter (w : WState) : Except PyErr WState :=
  if w.openCount ≠ 0 then
    .error (.runtimeError
      "already writing a file, cannot write another at the same time")
  else .ok ⟨w.openCount + 1⟩

/-- markdown_writer.Writer.__exit__: close the handle and clear it. -/
def writerExit (w : WState) : WState :=
  ⟨w.openCount - 1⟩

/-- The Python with-statement around the writer: run __enter__ (its failure
skips both body and __exit__), then the body, then __exit__ on both the
normal and the raising exit path, re-raising any body error. The final
writer state is returned on every path. -/
def withNewFile (w : WState) (body : Except PyErr (List String)) :
    WState × Except PyErr (List String) :=
  match writerEnter w with
  | .error e => (w, .error e)
  | .ok w1 =>
    match body with
    | .error e => (writerExit w1, .error e)
    | .ok out => (writerExit w1, .ok out)

/-- The writer states visited during one with-statement, in order, starting
from the entry state. -/
def withNewFileTrace (w : WState) : List WState :=
  match writerEnter w with
  | .error _ => [w]
  | .ok w1 => [w, w1, writerExit w1]

/-- One input file for the driver: its base name and its parsed XML root
element. -/
structure XmlFile where
  baseName : String
  root : Elem

/-- xml_processor._process_xml_file: skip files whose base name does not
start with the class filename convention; otherwise parse (errors
propagate) and write the level-1 heading inside the with-statement. -/
def processXmlFile (f : XmlFile) (w : WState) :
    WState × Except PyErr (List String) :=
  if "class".data.isPrefixOf f.baseName.data then
    match xpReadClassDoc f.baseName f.root with
    | .error e => (w, .error e)
    | .ok doc =>
      withNewFile w (do
        let n ← doc.nameFld
        pure ["# `" ++ n ++ "`\n\n"])
  else (w, .ok [])

/-- xml_processor.process_xml_files: process the files in order with no
exception handling, so the first error aborts the loop and propagates; the
successful outputs are paired with their file names. -/
def processXmlFiles (files : List XmlFile) (w : WState) :
    WState × Except PyErr (List (String × List String)) :=
  match files with
  | [] => (w, .ok [])
  | f :: rest =>
    match processXmlFile f w with
    | (w1, .error e) => (w1, .error e)
    | (w1, .ok out) =>
      match processXmlFiles rest w1 with
      | (w2, .error e) => (w2, .error e)
      | (w2, .ok outs) => (w2, .ok ((f.baseName, out) :: outs))

/-- The re.sub pattern of markdown_writer.Writer.write_paragraph: the class
of sentence-terminating punctuation marks. -/
def isSentenceEnd (c : Char) : Bool :=
  c = '.' || c = '!' || c = '?'

/-- The character class A-Z of the reflow pattern. -/
def isUpperAZ (c : Char) : Bool :=
  'A' ≤ c && c ≤ 'Z'

/-- The sentence reflow of markdown_writer.Writer.write_paragraph:
re.sub with a punctuation-space-uppercase pattern, replacing the space by a
line break; matches are found left to right and scanning resumes after each
match, exactly as re.sub does. -/
def reflow : List Char → List Char
  | a :: b :: c :: rest =>
    if isSentenceEnd a && b = ' ' && isUpperAZ c then
      a :: '\n' :: c :: reflow rest
    else
      a :: reflow (b :: c :: rest)
  | l => l

/-- No position of the list starts the reflow pattern
punctuation-space-uppercase. -/
def noTriple : List Char → Bool
  | a :: b :: c :: rest =>
    !(isSentenceEnd a && b = ' ' && isUpperAZ c) && noTriple (b :: c :: rest)
  | _ => true

/-- The output of reflow differs from its input at most by turning a space
into a line break, position by position; in particular no word character is
created, destroyed, or moved. -/
def onlySpaceToBreak : List Char → List Char → Prop
  | [], [] => True
  | a :: as, b :: bs => (b = a ∨ (a = ' ' ∧ b = '\n')) ∧ onlySpaceToBreak as bs
  | _, _ => False

/-- A fully populated ClassDocument whose single section holds one named
public member function: every optional top-level field is present, so only
the function-details path is exercised. -/
def c1docFunction : ClassDoc :=
  { filePath := "classA.xml", headerSearchPath := "", kind := "class",
    language := "C++", nameAttr := some "A", briefAttr := some (some "B."),
    detailedAttr := some "D.", locationAttr := some "a.hpp",
    sections := [⟨"Public Member Functions",
      [Member.function "int" "f" "doc" "()"]⟩] }

/-- A ClassDocument from a record without a location tag: the location
attribute was never assigned. -/
def c1docNoLocation : ClassDoc :=
  { filePath := "classA.xml", headerSearchPath := "", kind := "class",
    language := "C++", nameAttr := some "A", briefAttr := some (some "B."),
    detailedAttr := some "D.", locationAttr := none, sections := [] }

/-- A record with no compounddef root container. -/
def c3treeNoRoot : Elem := .mk "doxygen" [] none []

/-- A record whose compounddef has no compoundname child. -/
def c3treeNoName : Elem :=
  .mk "doxygen" [] none
    [.mk "compounddef" [("kind", "class"), ("language", "C++")] none []]

/-- A record whose compoundname is present but carries no text. -/
def c3treeEmptyName : Elem :=
  .mk "doxygen" [] none
    [.mk "compounddef" [("kind", "class"), ("language", "C++")] none
      [.mk "compoundname" [] none []]]

/-- A class record that lacks its compounddef root, under a file name with
the class prefix, so the driver parses it and the parse raises. -/
def c2badFile : XmlFile :=
  ⟨"classBad.xml", .mk "doxygen" [] none []⟩

/-- A valid sibling class record in the same batch. -/
def c2goodFile : XmlFile :=
  ⟨"classGood.xml", .mk "doxygen" [] none
    [.mk "compounddef" [] none [.mk "compoundname" [] (some "Good") []]]⟩

/-- A section of two Variable members that share one name. -/
def c4section : Section :=
  ⟨"Static Public Attributes",
    [Member.var "int" "x" "b1" "0", Member.var "int" "x" "b2" "1"]⟩

/-- A section whose first member is a Variable but which also contains a
Function member. -/
def c10section : Section :=
  ⟨"S", [Member.var "int" "v" "bv" "0", Member.function "int" "f" "bf" "()"]⟩

/-- Mirrors the spec words for C5: remove a single leading occurrence of
the search root from the path, leaving everything else unchanged. -/
def specStripLeadingOnce (s pat : String) : String :=
  if pat.data.isPrefixOf s.data then ⟨s.data.drop pat.data.length⟩ else s

/-- Follows the spec words for the brief-table description cell: the
briefText of the last member sharing the name whose briefText is non-empty,
or the empty string when no such member exists. -/
def specLastNonEmptyBrief (members : List Member) (n : String) : String :=
  (((members.filter (fun m => m.name == n && m.brief != "")).getLast?).map
    Member.brief).getD ""

/-- Whether the pattern occurs as a contiguous sublist, scanning every
start position. -/
def occursIn (pat : List Char) : List Char → Bool
  | [] => pat.isPrefixOf []
  | c :: cs => pat.isPrefixOf (c :: cs) || occursIn pat cs

/-- The ordinal order on section display names that Section.__lt__ sorts
by. -/
def secLe (a b : Section) : Prop :=
  a.name.data ≤ b.name.data

/-- A record with two recognized member groups appearing in reverse
alphabetical order of their display names. -/
def c7tree : Elem :=
  .mk "doxygen" [] none
    [.mk "compounddef" [("kind", "class"), ("language", "C++")] none
      [.mk "compoundname" [] (some "ns::A") [],
       .mk "sectiondef" [("kind", "public-static-attrib")] none
         [.mk "memberdef" [("kind", "variable")] none
           [.mk "type" [] (some "int") [], .mk "name" [] (some " x ") [],
            .mk "briefdescription" [] (some "b") [],
            .mk "initializer" [] (some "= 0") []]],
       .mk "sectiondef" [("kind", "public-func")] none
         [.mk "memberdef" [("kind", "function")] none
           [.mk "type" [] (some "void") [], .mk "name" [] (some "f") [],
            .mk "briefdescription" [] none [],
            .mk "argsstring" [] (some "()") []]]]]

/-- The document the reader builds from c7tree: the two sections come out
sorted by display name. -/
def c7doc : ClassDoc :=
  { filePath := "classA.xml", headerSearchPath := "", kind := "class",
    language := "C++", nameAttr := some "ns::A",
    sections := [⟨"Public Member Functions",
                   [Member.function "void" "f" "" "()"]⟩,
                 ⟨"Static Public Attributes",
                   [Member.var "int" "x" "b" "= 0"]⟩] }

/-- C1: the claim that rendering a valid ClassDocument never raises is
false on the code. A document whose section carries a named Function makes
_write_function_details read member.parameters, a field no Member has, so
rendering raises AttributeError; a document lacking the optional location
field makes write_class read the unassigned docs.location attribute, which
also raises. The spec (render is total) states the clear intent; the
renderer reading fields that class_reader never defines is the slip. -/
theorem render_raises_attributeError :
    writeClass c1docFunction = .error (.attributeError "parameters")
      ∧ writeClass c1docNoLocation = .error (.attributeError "location") :=
  ⟨rfl, rfl⟩

/-- C3: MissingTag is raised for a missing root container and MissingValue
for a present-but-textless qualified name, and the two payloads are
distinct; but a record that merely lacks its compoundname child raises
nothing — the reader completes with the name attribute unassigned, because
the None check inside __get_class_name is dead code (the method only runs
when a compoundname tag was found). The claim says MissingRequiredField is
raised exactly when the qualified-name field is lacking; the code is the
slip. -/
theorem reader_missing_name_not_raised :
    readClassDoc "f.xml" "" c3treeNoRoot
        = .error (.missingTag "compounddef" "f.xml")
      ∧ readClassDoc "f.xml" "" c3treeNoName
        = .ok { filePath := "f.xml", headerSearchPath := "", kind := "class",
                language := "C++", nameAttr := none }
      ∧ readClassDoc "f.xml" "" c3treeEmptyName
        = .error (.missingValue "compoundname" "f.xml")
      ∧ (PyErr.missingTag "compoundname" "f.xml"
          ≠ PyErr.missingValue "compoundname" "f.xml") :=
  ⟨rfl, rfl, rfl, by decide⟩

/-- C2 counterexample: the driver loop of process_xml_files has no
exception handling, so the MissingTag raised for the first file propagates
and the valid sibling file, which renders fine on its own, is never
rendered in the batch. -/
theorem batch_aborts_on_first_parse_error :
    processXmlFiles [c2goodFile] ⟨0⟩
        = (⟨0⟩, .ok [("classGood.xml", ["# `Good`\n\n"])])
      ∧ processXmlFiles [c2badFile, c2goodFile] ⟨0⟩
        = (⟨0⟩, .error (.missingTag "compounddef" "classBad.xml")) :=
  ⟨rfl, rfl⟩

/-- C2 amended: a per-file parse error is not caught by the driver; it
propagates out of process_xml_files with the failing file unlogged and
unskipped, and the remaining files of the batch, valid siblings included,
are not processed — the result of the whole batch does not depend on
them. -/
theorem parse_error_propagates_aborting_batch
    (f : XmlFile) (rest : List XmlFile) (w w1 : WState) (e : PyErr)
    (h : processXmlFile f w = (w1, .error e)) :
    processXmlFiles (f :: rest) w = (w1, .error e) := by
  simp only [processXmlFiles, h]

/-- Witness for parse_error_propagates_aborting_batch at the concrete
failing file followed by a valid sibling. -/
theorem parse_error_propagates_witness :
    processXmlFile c2badFile ⟨0⟩
        = (⟨0⟩, .error (.missingTag "compounddef" "classBad.xml"))
      ∧ processXmlFiles [c2badFile, c2goodFile] ⟨0⟩
        = (⟨0⟩, .error (.missingTag "compounddef" "classBad.xml")) :=
  ⟨rfl, parse_error_propagates_aborting_batch c2badFile [c2goodFile] ⟨0⟩ ⟨0⟩
    (.missingTag "compounddef" "classBad.xml") rfl⟩

/-- C4 counterexample: a Variable section is rendered with one row per
member and no deduplication, so the two same-named variables yield two
table rows, not the single row the claim demands for a deduplicated
name. -/
theorem variable_rows_not_deduped :
    writeBriefSection c4section
        = .ok ["## Static Public Attributes\n", "|Attribute|Description|",
          "|:--|:--|", "|`int x 0`|b1|", "|`int x 1`|b2|", ""]
      ∧ List.countP (fun l => "|`int x".data.isPrefixOf l.data)
          ["## Static Public Attributes\n", "|Attribute|Description|",
            "|:--|:--|", "|`int x 0`|b1|", "|`int x 1`|b2|", ""] = 2 :=
  ⟨rfl, by decide⟩

/-- C10 counterexample: in a mixed section whose first member is a
Variable, the attribute-table formatting is not applied to every member as
the claim states — reaching the Function member raises AttributeError on
its missing value field, and no table is produced at all. -/
theorem mixed_section_first_variant_claim_fails :
    writeBriefSection c10section = .error (.attributeError "value") := rfl

/-- C5 counterexample: with search root ab and path abcab, str.replace
removes the trailing occurrence as well, while the claim demands that only
the single leading occurrence go away. -/
theorem location_strip_not_single_leading :
    pyReplace "abcab" "ab" = "c"
      ∧ specStripLeadingOnce "abcab" "ab" = "cab"
      ∧ ("c" : String) ≠ "cab" := by
  refine ⟨?_, by decide, by decide⟩
  simp [pyReplace, removeAll, List.isPrefixOf]

/-- The running value of the inner loop of _combine_brief_section equals
the brief of the last matching member with a truthy brief, or the initial
value when there is none. -/
theorem foldl_brief_eq_getLast (n : String) :
    ∀ (l : List Member) (acc : String),
      l.foldl (fun a m => if m.name = n ∧ m.brief ≠ "" then m.brief else a) acc
        = (((l.filter (fun m => m.name == n && m.brief != "")).getLast?).map
            Member.brief).getD acc := by
  intro l
  induction l with
  | nil => intro acc; simp
  | cons m tl ih =>
    intro acc
    simp only [List.foldl_cons, List.filter_cons]
    by_cases hc : m.name = n ∧ m.brief ≠ ""
    · have hb : (m.name == n && m.brief != "") = true := by
        simp only [Bool.and_eq_true, beq_iff_eq, bne_iff_ne]
        exact hc
      simp only [hb, if_true, if_pos hc]
      rw [ih]
      cases hft : tl.filter (fun m => m.name == n && m.brief != "") with
      | nil => simp
      | cons x xs =>
        have hy : (x :: xs).getLast? = some ((x :: xs).getLast (by simp)) :=
          List.getLast?_eq_getLast _ _
        simp [List.getLast?_cons_cons, hy]
    · have hb : (m.name == n && m.brief != "") = false := by
        by_contra hcon
        rw [Bool.not_eq_false, Bool.and_eq_true, beq_iff_eq, bne_iff_ne]
          at hcon
        exact hc hcon
      simp only [hb, Bool.false_eq_true, if_false, if_neg hc]
      exact ih acc

/-- C6: in the brief table of a Function section, the description cell of
each distinct name is the briefText of the last member with that name whose
briefText is non-empty, and empty when every such member has an empty
brief; an empty-brief overload never overwrites a prior non-empty brief. -/
theorem combine_brief_last_nonempty_wins :
    (∀ members : List Member,
      combineBriefSection members
        = (dedupNames members).map
            (fun n => (n, specLastNonEmptyBrief members n)))
    ∧ (∀ members : List Member,
      writeFunctionBriefs members
        = tableHeaderLines "Function"
          ++ (dedupNames members).map
              (fun n => tableRowLine
                ["`" ++ n ++ "`", specLastNonEmptyBrief members n])
          ++ [""]) := by
  have hcomb : ∀ members : List Member,
      combineBriefSection members
        = (dedupNames members).map
            (fun n => (n, specLastNonEmptyBrief members n)) := by
    intro members
    unfold combineBriefSection
    refine List.map_congr_left (fun n _ => ?_)
    simp only [briefFor, specLastNonEmptyBrief]
    exact congrArg (Prod.mk n) (foldl_brief_eq_getLast n members "")
  refine ⟨hcomb, fun members => ?_⟩
  unfold writeFunctionBriefs
  rw [hcomb, List.map_map]
  rfl

/-- The name-collection loop only ever appends to its accumulator. -/
theorem foldl_dedupStep_extends :
    ∀ (ms : List Member) (acc : List String),
      ∃ ext, ms.foldl dedupStep acc = acc ++ ext := by
  intro ms
  induction ms with
  | nil => intro acc; exact ⟨[], by simp⟩
  | cons m tl ih =>
    intro acc
    simp only [List.foldl_cons]
    by_cases hc : m.name ≠ "" ∧ m.name ∉ acc
    · obtain ⟨ext, hext⟩ := ih (acc ++ [m.name])
      refine ⟨[m.name] ++ ext, ?_⟩
      rw [dedupStep, if_pos hc] at *
      rw [hext, List.append_assoc]
    · obtain ⟨ext, hext⟩ := ih acc
      refine ⟨ext, ?_⟩
      rw [dedupStep, if_neg hc]
      exact hext

/-- The name-collection loop preserves distinctness of collected names. -/
theorem foldl_dedupStep_nodup :
    ∀ (ms : List Member) (acc : List String), acc.Nodup →
      (ms.foldl dedupStep acc).Nodup := by
  intro ms
  induction ms with
  | nil => intro acc h; simpa using h
  | cons m tl ih =>
    intro acc h
    simp only [List.foldl_cons]
    refine ih _ ?_
    rw [dedupStep]
    by_cases hc : m.name ≠ "" ∧ m.name ∉ acc
    · rw [if_pos hc]
      simp [List.nodup_append, h, hc.2]
    · rw [if_neg hc]
      exact h

/-- The distinct names collected by _combine_brief_section are pairwise
distinct. -/
theorem dedupNames_nodup (ms : List Member) : (dedupNames ms).Nodup :=
  foldl_dedupStep_nodup ms [] (by simp)

/-- Every collected name is the name of some member (or was already in the
accumulator). -/
theorem mem_foldl_dedupStep :
    ∀ (ms : List Member) (acc : List String) (n : String),
      n ∈ ms.foldl dedupStep acc → n ∈ acc ∨ ∃ m ∈ ms, m.name = n := by
  intro ms
  induction ms with
  | nil => intro acc n h; exact Or.inl (by simpa using h)
  | cons m tl ih =>
    intro acc n h
    simp only [List.foldl_cons] at h
    rcases ih _ _ h with hacc | ⟨x, hx, hxn⟩
    · rw [dedupStep] at hacc
      by_cases hc : m.name ≠ "" ∧ m.name ∉ acc
      · rw [if_pos hc] at hacc
        rcases List.mem_append.mp hacc with h1 | h2
        · exact Or.inl h1
        · have : n = m.name := by simpa using h2
          exact Or.inr ⟨m, by simp, this.symm⟩
      · rw [if_neg hc] at hacc
        exact Or.inl hacc
    · exact Or.inr ⟨x, by simp [hx], hxn⟩

/-- As soon as some member carries a truthy name, the collected name list
is non-empty. -/
theorem foldl_dedupStep_ne_nil :
    ∀ (ms : List Member) (acc : List String) (x : Member),
      x ∈ ms → x.name ≠ "" → ms.foldl dedupStep acc ≠ [] := by
  intro ms
  induction ms with
  | nil => intro acc x hx; exact absurd hx (by simp)
  | cons m tl ih =>
    intro acc x hx hname
    simp only [List.foldl_cons]
    rcases List.mem_cons.mp hx with rfl | htl
    · have hstep : dedupStep acc x ≠ [] := by
        rw [dedupStep]
        by_cases hc : x.name ≠ "" ∧ x.name ∉ acc
        · rw [if_pos hc]; simp
        · rw [if_neg hc]
          have : x.name ∈ acc := by
            by_contra hmem
            exact hc ⟨hname, hmem⟩
          exact List.ne_nil_of_mem this
      obtain ⟨ext, hext⟩ := foldl_dedupStep_extends tl (dedupStep acc x)
      rw [hext]
      intro hnil
      exact hstep (List.append_eq_nil.mp hnil).1
    · exact ih _ x htl hname

/-- On a list of Variable members the row loop of _write_variable_briefs
succeeds and emits exactly one row per member, in order. -/
theorem varRows_all_var :
    ∀ ms : List Member, (∀ m ∈ ms, m.isVar = true) →
      varRows ms = .ok (ms.map (fun m => tableRowLine
        ["`" ++ m.type ++ " " ++ m.name ++ " " ++ m.valueD ++ "`",
         m.brief])) := by
  intro ms
  induction ms with
  | nil => intro _; rfl
  | cons m tl ih =>
    intro h
    have hm := h m (by simp)
    have htl : ∀ x ∈ tl, x.isVar = true := fun x hx => h x (by simp [hx])
    cases m with
    | function t n b a => simp [Member.isVar] at hm
    | var t n b v =>
      simp only [varRows, List.mapM_cons] at ih ⊢
      rw [ih htl]
      rfl

/-- C4 amended: row deduplication by name happens only for Function
sections — the Function/Description table carries pairwise-distinct names —
while a Variable section is rendered with exactly one Attribute row per
member in source order, so members sharing a name each keep their own
row. -/
theorem function_rows_dedup_variable_rows_not :
    (∀ members : List Member,
      ((combineBriefSection members).map Prod.fst).Nodup)
    ∧ (∀ members : List Member, (∀ m ∈ members, m.isVar = true) →
        writeVariableBriefs members = .ok (tableHeaderLines "Attribute"
          ++ members.map (fun m => tableRowLine
              ["`" ++ m.type ++ " " ++ m.name ++ " " ++ m.valueD ++ "`",
               m.brief])
          ++ [""])) := by
  constructor
  · intro members
    have : (combineBriefSection members).map Prod.fst = dedupNames members := by
      simp only [combineBriefSection, List.map_map]
      exact List.map_id _
    rw [this]
    exact dedupNames_nodup members
  · intro members h
    simp only [writeVariableBriefs]
    rw [varRows_all_var members h]
    rfl

/-- Witness for function_rows_dedup_variable_rows_not at the two same-named
variables of the counterexample section. -/
theorem function_rows_dedup_variable_rows_not_witness :
    (∀ m ∈ [Member.var "int" "x" "b1" "0", Member.var "int" "x" "b2" "1"],
      m.isVar = true)
    ∧ writeVariableBriefs
        [Member.var "int" "x" "b1" "0", Member.var "int" "x" "b2" "1"]
      = .ok (tableHeaderLines "Attribute"
          ++ [Member.var "int" "x" "b1" "0",
              Member.var "int" "x" "b2" "1"].map (fun m => tableRowLine
              ["`" ++ m.type ++ " " ++ m.name ++ " " ++ m.valueD ++ "`",
               m.brief])
          ++ [""]) :=
  ⟨by decide, function_rows_dedup_variable_rows_not.2 _ (by decide)⟩

/-- The variable-row loop applied to a list that reaches a Function member
after any run of Variables raises AttributeError on the missing value
field. -/
theorem varRows_hits_function :
    ∀ (pre : List Member) (f : Member) (post : List Member),
      (∀ m ∈ pre, m.isVar = true) → f.isFunction = true →
      varRows (pre ++ f :: post) = .error (.attributeError "value") := by
  intro pre
  induction pre with
  | nil =>
    intro f post _ hf
    cases f with
    | var t n b v => simp [Member.isFunction] at hf
    | function t n b a => rfl
  | cons m tl ih =>
    intro f post h hf
    have hm := h m (by simp)
    have htl : ∀ x ∈ tl, x.isVar = true := fun x hx => h x (by simp [hx])
    cases m with
    | function t n b a => simp [Member.isVar] at hm
    | var t n b v =>
      have := ih f post htl hf
      simp only [varRows, List.cons_append, List.mapM_cons] at this ⊢
      rw [this]
      rfl

/-- The per-member detail block always raises: its first step reads the
nonexistent parameters field. -/
theorem functionDetailFor_error (m : Member) :
    functionDetailFor m = .error (.attributeError "parameters") := rfl

/-- Whenever a section holds a member with a truthy name, the detail pass
of a Function-first section raises AttributeError on the parameters
field. -/
theorem writeFunctionDetails_error (sec : Section) (cn : String)
    (hx : ∃ x ∈ sec.members, x.name ≠ "") :
    writeFunctionDetails sec cn = .error (.attributeError "parameters") := by
  obtain ⟨x, hxmem, hxname⟩ := hx
  have hdn : dedupNames sec.members ≠ [] :=
    foldl_dedupStep_ne_nil sec.members [] x hxmem hxname
  have hcne : combineBriefSection sec.members ≠ [] := by
    simp only [combineBriefSection]
    intro hmap
    exact hdn (List.map_eq_nil_iff.mp hmap)
  obtain ⟨e, es, hc⟩ := List.exists_cons_of_ne_nil hcne
  have he1 : e.1 ∈ dedupNames sec.members := by
    have : e ∈ combineBriefSection sec.members := by rw [hc]; simp
    simp only [combineBriefSection, List.mem_map] at this
    obtain ⟨n, hn, hne⟩ := this
    rw [← hne]
    exact hn
  have hmem : ∃ m ∈ sec.members, m.name = e.1 := by
    rcases mem_foldl_dedupStep sec.members [] e.1 he1 with habs | hgood
    · simp at habs
    · exact hgood
  obtain ⟨y, hymem, hyname⟩ := hmem
  have hfil : y ∈ sec.members.filter (fun m => m.name == e.1) :=
    List.mem_filter.mpr ⟨hymem, by simp [hyname]⟩
  obtain ⟨z, zs, hzf⟩ :=
    List.exists_cons_of_ne_nil (List.ne_nil_of_mem hfil)
  simp only [writeFunctionDetails, hc, List.mapM_cons, hzf]
  rfl

/-- C10 amended: which table a mixed section gets is decided solely by the
variant of its first member, but the claimed outputs only partly happen: a
Function-first section gets the deduplicated Function/Description table
over all members (Variables included, keyed by name and brief); an
all-Variable section gets one Attribute row per member with no detail
subsections; a Variable-first section that also contains a Function raises
AttributeError on the missing value field instead of formatting that row;
and the detail subsections of a Function-first section raise AttributeError
on the missing parameters field as soon as any member has a truthy name. -/
theorem section_rendering_dispatch_on_first_member :
    (∀ (nm : String) (m : Member) (rest : List Member), m.isFunction = true →
      writeBriefSection ⟨nm, m :: rest⟩
        = .ok (headingLine 2 nm :: writeFunctionBriefs (m :: rest)))
    ∧ (∀ (nm : String) (ms : List Member), ms ≠ [] →
        (∀ m ∈ ms, m.isVar = true) →
        writeBriefSection ⟨nm, ms⟩
          = .ok (headingLine 2 nm :: (tableHeaderLines "Attribute"
              ++ ms.map (fun m => tableRowLine
                  ["`" ++ m.type ++ " " ++ m.name ++ " " ++ m.valueD ++ "`",
                   m.brief]) ++ [""])))
    ∧ (∀ (nm : String) (vs post : List Member) (f : Member), vs ≠ [] →
        (∀ m ∈ vs, m.isVar = true) → f.isFunction = true →
        writeBriefSection ⟨nm, vs ++ f :: post⟩
          = .error (.attributeError "value"))
    ∧ (∀ (nm cn : String) (m : Member) (rest : List Member), m.isVar = true →
        writeDetailedSection ⟨nm, m :: rest⟩ cn = .ok [])
    ∧ (∀ (nm cn : String) (m : Member) (rest : List Member),
        m.isFunction = true → (∃ x ∈ m :: rest, x.name ≠ "") →
        writeDetailedSection ⟨nm, m :: rest⟩ cn
          = .error (.attributeError "parameters")) := by
  refine ⟨?_, ?_, ?_, ?_, ?_⟩
  · intro nm m rest hm
    simp only [writeBriefSection, hm, if_true]
    rfl
  · intro nm ms hne h
    obtain ⟨m, tl, rfl⟩ := List.exists_cons_of_ne_nil hne
    have hm := h m (by simp)
    have hnf : m.isFunction = false := by
      cases m with
      | function t n b a => simp [Member.isVar] at hm
      | var t n b v => rfl
    simp only [writeBriefSection, hnf, Bool.false_eq_true, if_false,
      writeVariableBriefs]
    rw [varRows_all_var (m :: tl) h]
    rfl
  · intro nm vs post f hne h hf
    obtain ⟨m, tl, rfl⟩ := List.exists_cons_of_ne_nil hne
    have hm := h m (by simp)
    have hnf : m.isFunction = false := by
      cases m with
      | function t n b a => simp [Member.isVar] at hm
      | var t n b v => rfl
    simp only [writeBriefSection, List.cons_append, hnf, Bool.false_eq_true,
      if_false, writeVariableBriefs]
    have := varRows_hits_function (m :: tl) f post h hf
    simp only [List.cons_append] at this
    rw [this]
    rfl
  · intro nm cn m rest hm
    have hnf : m.isFunction = false := by
      cases m with
      | function t n b a => simp [Member.isVar] at hm
      | var t n b v => rfl
    simp only [writeDetailedSection, hnf, Bool.false_eq_true, if_false]
    rfl
  · intro nm cn m rest hm hx
    have : writeDetailedSection ⟨nm, m :: rest⟩ cn
        = writeFunctionDetails ⟨nm, m :: rest⟩ cn := by
      simp [writeDetailedSection, hm]
    rw [this]
    exact writeFunctionDetails_error _ cn hx

/-- Witness for section_rendering_dispatch_on_first_member: the
Variable-then-Function section raises on the value field, and a named
Function-first section raises on the parameters field in its detail
pass. -/
theorem section_rendering_dispatch_witness :
    (([Member.var "int" "v" "bv" "0"] : List Member) ≠ []
      ∧ (∀ m ∈ [Member.var "int" "v" "bv" "0"], m.isVar = true)
      ∧ (Member.function "int" "f" "bf" "()").isFunction = true
      ∧ writeBriefSection ⟨"S", [Member.var "int" "v" "bv" "0"]
            ++ Member.function "int" "f" "bf" "()" :: []⟩
        = .error (.attributeError "value"))
    ∧ ((Member.function "int" "f" "bf" "()").isFunction = true
      ∧ (∃ x ∈ Member.function "int" "f" "bf" "()" :: ([] : List Member),
          x.name ≠ "")
      ∧ writeDetailedSection ⟨"PF", [Member.function "int" "f" "bf" "()"]⟩ "A"
        = .error (.attributeError "parameters")) :=
  ⟨⟨by decide, by decide, by decide,
    section_rendering_dispatch_on_first_member.2.2.1 "S"
      [Member.var "int" "v" "bv" "0"] [] (Member.function "int" "f" "bf" "()")
      (by decide) (by decide) (by decide)⟩,
   ⟨by decide, by decide,
    section_rendering_dispatch_on_first_member.2.2.2.2 "PF" "A"
      (Member.function "int" "f" "bf" "()") [] (by decide) (by decide)⟩⟩

/-- Driver processing of one file brings the writer back to the
no-open-file state. -/
theorem processXmlFile_closes (f : XmlFile) (w : WState)
    (h : w.openCount = 0) : (processXmlFile f w).1.openCount = 0 := by
  simp only [processXmlFile]
  by_cases hp : "class".data.isPrefixOf f.baseName.data
  · simp only [hp, if_true]
    cases xpReadClassDoc f.baseName f.root with
    | error e => exact h
    | ok doc =>
      simp only [withNewFile, writerEnter, h]
      cases doc.nameFld with
      | error e => rfl
      | ok n => rfl
  · simp only [hp, Bool.false_eq_true, if_false]
    exact h

/-- C9: the output-handle discipline. From the closed state a
with-statement around the writer visits only states with at most one open
handle and ends closed on both the normal and the raising exit path; a
with-statement entered while a file is already open raises RuntimeError
without opening anything; and a whole driver batch starting closed ends
closed. -/
theorem writer_handle_discipline :
    (∀ (w : WState) (body : Except PyErr (List String)), w.openCount = 0 →
      (withNewFile w body).1.openCount = 0
        ∧ ∀ s ∈ withNewFileTrace w, s.openCount ≤ 1)
    ∧ (∀ (w : WState) (body : Except PyErr (List String)), w.openCount ≠ 0 →
      withNewFile w body
        = (w, .error (.runtimeError
            "already writing a file, cannot write another at the same time")))
    ∧ (∀ (files : List XmlFile) (w : WState), w.openCount = 0 →
      (processXmlFiles files w).1.openCount = 0) := by
  refine ⟨?_, ?_, ?_⟩
  · intro w body h
    constructor
    · simp only [withNewFile, writerEnter, h]
      cases body with
      | error e => rfl
      | ok out => rfl
    · intro s hs
      simp only [withNewFileTrace, writerEnter, h] at hs
      simp only [if_neg (by simp : ¬(0 : Nat) ≠ 0), List.mem_cons,
        List.mem_singleton, List.not_mem_nil] at hs
      rcases hs with rfl | rfl | (rfl | habs)
      · omega
      · simp [writerExit]
      · simp [writerExit]
      · cases habs
  · intro w body h
    simp [withNewFile, writerEnter, h]
  · intro files
    induction files with
    | nil => intro w h; exact h
    | cons f rest ih =>
      intro w h
      have h1 : (processXmlFile f w).1.openCount = 0 :=
        processXmlFile_closes f w h
      cases hpf : processXmlFile f w with
      | mk w1 out =>
        rw [hpf] at h1
        cases out with
        | error e =>
          simp only [processXmlFiles, hpf]
          exact h1
        | ok o =>
          have h2 : (processXmlFiles rest w1).1.openCount = 0 := ih w1 h1
          cases hrec : processXmlFiles rest w1 with
          | mk w2 out2 =>
            rw [hrec] at h2
            cases out2 with
            | error e =>
              simp only [processXmlFiles, hpf, hrec]
              exact h2
            | ok outs =>
              simp only [processXmlFiles, hpf, hrec]
              exact h2

/-- Witness for writer_handle_discipline: a raising body from the closed
state, an attempted nested open from the open state, and a one-file batch
from the closed state. -/
theorem writer_handle_discipline_witness :
    ((⟨0⟩ : WState).openCount = 0
      ∧ ((withNewFile ⟨0⟩ (.error (.attributeError "parameters"))).1.openCount
            = 0
        ∧ ∀ s ∈ withNewFileTrace ⟨0⟩, s.openCount ≤ 1))
    ∧ ((⟨1⟩ : WState).openCount ≠ 0
      ∧ withNewFile ⟨1⟩ (.ok [])
          = (⟨1⟩, .error (.runtimeError
              "already writing a file, cannot write another at the same time")))
    ∧ (((⟨0⟩ : WState).openCount = 0)
      ∧ (processXmlFiles [⟨"other.xml", .mk "r" [] none []⟩] ⟨0⟩).1.openCount
          = 0) :=
  ⟨⟨rfl, writer_handle_discipline.1 ⟨0⟩ (.error (.attributeError "parameters"))
      rfl⟩,
   ⟨by decide, writer_handle_discipline.2.1 ⟨1⟩ (.ok []) (by decide)⟩,
   ⟨rfl, writer_handle_discipline.2.2 [⟨"other.xml", .mk "r" [] none []⟩] ⟨0⟩
      rfl⟩⟩

/-- str.replace with the empty replacement removes a leading occurrence of
the pattern and keeps scanning the remainder. -/
theorem removeAll_cancel_leading (pat rest : List Char) (h : pat ≠ []) :
    removeAll pat (pat ++ rest) = removeAll pat rest := by
  obtain ⟨p, ps, rfl⟩ := List.exists_cons_of_ne_nil h
  have hpre : (p :: ps).isPrefixOf (p :: (ps ++ rest)) = true := by
    rw [ List.isPrefixOf_iff_prefix, ← List.cons_append]
    exact List.prefix_append _ _
  rw [removeAll.eq_def]
  rw [dif_neg h]
  simp only [List.cons_append]
  rw [if_pos hpre, ← List.cons_append, List.drop_left]

/-- Scanning str.replace over a clean prefix (one in which no occurrence of
the pattern starts) copies the prefix verbatim and then removes the
occurrence that follows it. -/
theorem removeAll_skip_clean_run :
    ∀ (pre pat rest : List Char), pat ≠ [] →
      occursIn pat (pre ++ pat.dropLast) = false →
      removeAll pat (pre ++ pat ++ rest) = pre ++ removeAll pat rest := by
  intro pre
  induction pre with
  | nil =>
    intro pat rest h _
    simpa using removeAll_cancel_leading pat rest h
  | cons c pre' ih =>
    intro pat rest h hocc
    have hocc' : occursIn pat (c :: (pre' ++ pat.dropLast)) = false := hocc
    rw [occursIn, Bool.or_eq_false_iff] at hocc'
    obtain ⟨h1, h2⟩ := hocc'
    have hlast : pat.dropLast ++ [pat.getLast h] = pat :=
      List.dropLast_append_getLast h
    have hsplit : pat.dropLast ++ (pat.getLast h :: rest) = pat ++ rest := by
      conv_rhs => rw [← hlast]
      simp
    have hnotpre : pat.isPrefixOf (c :: (pre' ++ pat ++ rest)) = false := by
      by_contra hcon
      rw [Bool.not_eq_false, List.isPrefixOf_iff_prefix] at hcon
      have hbig : (c :: (pre' ++ pat.dropLast))
          <+: (c :: (pre' ++ pat ++ rest)) := by
        refine ⟨[pat.getLast h] ++ rest, ?_⟩
        simp only [List.cons_append, List.append_assoc, List.singleton_append,
          List.nil_append]
        rw [hsplit]
      have hlen : pat.length ≤ (c :: (pre' ++ pat.dropLast)).length := by
        simp only [List.length_cons, List.length_append,
          List.length_dropLast]
        have hp : 0 < pat.length := List.length_pos.mpr h
        omega
      have hres : pat <+: c :: (pre' ++ pat.dropLast) :=
        List.prefix_of_prefix_length_le hcon hbig hlen
      have htrue : pat.isPrefixOf (c :: (pre' ++ pat.dropLast)) = true :=
        List.isPrefixOf_iff_prefix.mpr hres
      rw [htrue] at h1
      cases h1
    have goal' : removeAll pat (c :: (pre' ++ pat ++ rest))
        = c :: (pre' ++ removeAll pat rest) := by
      rw [removeAll.eq_def]
      rw [dif_neg h]
      simp only [hnotpre, Bool.false_eq_true, if_false]
      rw [ih pat rest h h2]
    exact goal'

/-- C5 amended: when the header path is present, str.replace removes every
non-overlapping occurrence of headerSearchRoot scanning left to right, not
only a single leading one: a leading occurrence is removed and scanning
continues on the remainder, and an occurrence after any clean prefix is
removed as well, with the prefix copied unchanged. -/
theorem location_replace_removes_every_occurrence :
    (∀ (pat rest : List Char), pat ≠ [] →
      removeAll pat (pat ++ rest) = removeAll pat rest)
    ∧ (∀ (pre pat rest : List Char), pat ≠ [] →
      occursIn pat (pre ++ pat.dropLast) = false →
      removeAll pat (pre ++ pat ++ rest) = pre ++ removeAll pat rest) :=
  ⟨removeAll_cancel_leading, removeAll_skip_clean_run⟩

/-- Witness for location_replace_removes_every_occurrence on the pattern ab
with clean prefix x and remainder yab. -/
theorem location_replace_removes_every_occurrence_witness :
    ((['a', 'b'] : List Char) ≠ []
      ∧ occursIn ['a', 'b'] (['x'] ++ (['a', 'b'] : List Char).dropLast)
          = false)
    ∧ removeAll ['a', 'b'] (['x'] ++ ['a', 'b'] ++ ['y', 'a', 'b'])
        = ['x'] ++ removeAll ['a', 'b'] ['y', 'a', 'b'] :=
  ⟨⟨by decide, by decide⟩,
   location_replace_removes_every_occurrence.2 ['x'] ['a', 'b']
     ['y', 'a', 'b'] (by decide) (by decide)⟩

/-- An upper-case letter is not a sentence-terminating punctuation mark. -/
theorem upper_not_sentenceEnd (c : Char) (h : isUpperAZ c = true) :
    isSentenceEnd c = false := by
  by_contra hcon
  rw [Bool.not_eq_false, isSentenceEnd] at hcon
  simp only [Bool.or_eq_true, decide_eq_true_eq] at hcon
  rcases hcon with (rfl | rfl) | rfl
  · exact absurd h (by decide)
  · exact absurd h (by decide)
  · exact absurd h (by decide)

/-- A position whose character cannot end a sentence starts no reflow
match. -/
theorem noTriple_cons_not_end (x : Char) (xs : List Char)
    (hx : isSentenceEnd x = false) : noTriple (x :: xs) = noTriple xs := by
  cases xs with
  | nil => rfl
  | cons b ys =>
    cases ys with
    | nil => rfl
    | cons cc zs => simp [noTriple, hx]

/-- A position whose second character is not a space starts no reflow
match. -/
theorem noTriple_cons_not_space (a b : Char) (xs : List Char)
    (hb : b ≠ ' ') : noTriple (a :: b :: xs) = noTriple (b :: xs) := by
  cases xs with
  | nil => rfl
  | cons cc zs => simp [noTriple, hb]

/-- A position whose full three-character guard fails starts no reflow
match. -/
theorem noTriple_cons_guard_false (a b c : Char) (w : List Char)
    (hg : (isSentenceEnd a && decide (b = ' ') && isUpperAZ c) = false) :
    noTriple (a :: b :: c :: w) = noTriple (b :: c :: w) := by
  simp [noTriple, hg]

/-- reflow keeps the head character of its input. -/
theorem reflow_cons_head (a : Char) (l : List Char) :
    ∃ t, reflow (a :: l) = a :: t := by
  cases l with
  | nil => exact ⟨[], rfl⟩
  | cons b l' =>
    cases l' with
    | nil => exact ⟨[b], rfl⟩
    | cons c r =>
      by_cases hg : (isSentenceEnd a && decide (b = ' ') && isUpperAZ c) = true
      · exact ⟨'\n' :: c :: reflow r, by simp [reflow, hg]⟩
      · exact ⟨reflow (b :: c :: r), by simp [reflow, hg]⟩

/-- The output of reflow contains no remaining match of the reflow
pattern. -/
theorem noTriple_reflow : ∀ l : List Char, noTriple (reflow l) = true := by
  intro l
  induction l using reflow.induct with
  | case1 a b c rest hg ih =>
    obtain ⟨⟨ha, hb⟩, hc⟩ : (isSentenceEnd a = true ∧ b = ' ')
        ∧ isUpperAZ c = true := by simpa [Bool.and_eq_true] using hg
    rw [show reflow (a :: b :: c :: rest) = a :: '\n' :: c :: reflow rest
      from by simp [reflow, hg]]
    rw [noTriple_cons_not_space a '\n' (c :: reflow rest) (by decide)]
    rw [noTriple_cons_not_end '\n' (c :: reflow rest) (by decide)]
    rw [noTriple_cons_not_end c (reflow rest) (upper_not_sentenceEnd c hc)]
    exact ih
  | case2 a b c rest hg ih =>
    rw [show reflow (a :: b :: c :: rest) = a :: reflow (b :: c :: rest)
      from by simp [reflow, hg]]
    have hgf : (isSentenceEnd a && decide (b = ' ') && isUpperAZ c)
        = false := by rw [← Bool.not_eq_true]; exact hg
    cases rest with
    | nil =>
      rw [show reflow [b, c] = [b, c] from rfl]
      simp [noTriple, hgf]
    | cons d rs =>
      by_cases hg2 : (isSentenceEnd b && decide (c = ' ') && isUpperAZ d)
          = true
      · rw [show reflow (b :: c :: d :: rs) = b :: '\n' :: d :: reflow rs
          from by simp [reflow, hg2]] at ih ⊢
        have h3 : isUpperAZ '\n' = false := by decide
        rw [noTriple_cons_guard_false a b '\n' (d :: reflow rs)
          (by simp [h3])]
        exact ih
      · rw [show reflow (b :: c :: d :: rs) = b :: reflow (c :: d :: rs)
          from by simp [reflow, hg2]] at ih ⊢
        obtain ⟨t, ht⟩ := reflow_cons_head c (d :: rs)
        rw [ht] at ih ⊢
        rw [noTriple_cons_guard_false a b c t hgf]
        exact ih
  | case3 l hsmall =>
    cases l with
    | nil => rfl
    | cons x xs =>
      cases xs with
      | nil => rfl
      | cons y ys =>
        cases ys with
        | nil => rfl
        | cons z zs => exact (hsmall x y z zs rfl).elim

/-- reflow leaves match-free text unchanged. -/
theorem reflow_id_of_noTriple : ∀ l : List Char, noTriple l = true →
    reflow l = l := by
  intro l
  induction l using reflow.induct with
  | case1 a b c rest hg ih =>
    intro h
    rw [noTriple] at h
    simp [hg] at h
  | case2 a b c rest hg ih =>
    intro h
    have hgf : (isSentenceEnd a && decide (b = ' ') && isUpperAZ c)
        = false := by rw [← Bool.not_eq_true]; exact hg
    rw [noTriple_cons_guard_false a b c rest hgf] at h
    rw [show reflow (a :: b :: c :: rest) = a :: reflow (b :: c :: rest)
      from by simp [reflow, hg]]
    rw [ih h]
  | case3 l hsmall =>
    intro _
    cases l with
    | nil => rfl
    | cons x xs =>
      cases xs with
      | nil => rfl
      | cons y ys =>
        cases ys with
        | nil => rfl
        | cons z zs => exact (hsmall x y z zs rfl).elim

/-- Reflexivity of the word-safety relation. -/
theorem onlySpaceToBreak_refl : ∀ l : List Char, onlySpaceToBreak l l := by
  intro l
  induction l with
  | nil => trivial
  | cons a as ih => exact ⟨Or.inl rfl, ih⟩

/-- C8: the sentence reflow is idempotent — a second application changes
nothing — and it never alters word content: each output position holds the
input character, except that a matched space becomes a line break. -/
theorem reflow_idempotent_word_safe :
    (∀ l : List Char, reflow (reflow l) = reflow l)
    ∧ (∀ l : List Char, onlySpaceToBreak l (reflow l)) := by
  constructor
  · intro l
    exact reflow_id_of_noTriple (reflow l) (noTriple_reflow l)
  · intro l
    induction l using reflow.induct with
    | case1 a b c rest hg ih =>
      obtain ⟨⟨ha, hb⟩, hc⟩ : (isSentenceEnd a = true ∧ b = ' ')
          ∧ isUpperAZ c = true := by simpa [Bool.and_eq_true] using hg
      rw [show reflow (a :: b :: c :: rest) = a :: '\n' :: c :: reflow rest
        from by simp [reflow, hg]]
      exact ⟨Or.inl rfl, Or.inr ⟨hb, rfl⟩, Or.inl rfl, ih⟩
    | case2 a b c rest hg ih =>
      rw [show reflow (a :: b :: c :: rest) = a :: reflow (b :: c :: rest)
        from by simp [reflow, hg]]
      exact ⟨Or.inl rfl, ih⟩
    | case3 l hsmall =>
      cases l with
      | nil => trivial
      | cons x xs =>
        cases xs with
        | nil => exact ⟨Or.inl rfl, trivial⟩
        | cons y ys =>
          cases ys with
          | nil => exact ⟨Or.inl rfl, Or.inl rfl, trivial⟩
          | cons z zs => exact (hsmall x y z zs rfl).elim

/-- Bind on a successful Except value applies the continuation. -/
theorem exBind_ok {α β : Type} (a : α) (f : α → Except PyErr β) :
    (Except.ok a : Except PyErr α) >>= f = f a := rfl

/-- Bind on a failed Except value propagates the error. -/
theorem exBind_error {α β : Type} (e : PyErr) (f : α → Except PyErr β) :
    (Except.error e : Except PyErr α) >>= f = .error e := rfl

/-- pure on Except is the ok constructor. -/
theorem exPure {α : Type} (a : α) : (pure a : Except PyErr α) = .ok a := rfl

/-- Inversion of a successful Except bind. -/
theorem exBind_ok_inv {α β : Type} {x : Except PyErr α}
    {k : α → Except PyErr β} {b : β} (h : x >>= k = .ok b) :
    ∃ a, x = .ok a ∧ k a = .ok b := by
  cases x with
  | error e => rw [exBind_error] at h; exact Except.noConfusion h
  | ok a => exact ⟨a, rfl, by rwa [exBind_ok] at h⟩

/-- Inserting a section produces a permutation of pushing it on top. -/
theorem insertSec_perm (s : Section) :
    ∀ l, List.Perm (insertSec s l) (s :: l) := by
  intro l
  induction l with
  | nil => rfl
  | cons t ts ih =>
    rw [insertSec]
    by_cases hlt : t.name.data < s.name.data
    · rw [if_pos hlt]
      exact (List.Perm.cons t ih).trans (List.Perm.swap s t ts)
    · rw [if_neg hlt]

/-- The section sort permutes its input. -/
theorem sortSections_perm : ∀ l, List.Perm (sortSections l) l := by
  intro l
  induction l with
  | nil => rfl
  | cons s ss ih =>
    rw [sortSections]
    exact (insertSec_perm s (sortSections ss)).trans (List.Perm.cons s ih)

/-- Insertion preserves sortedness by name. -/
theorem insertSec_sorted (s : Section) :
    ∀ l, List.Sorted secLe l → List.Sorted secLe (insertSec s l) := by
  intro l
  induction l with
  | nil => intro _; simp [insertSec, secLe]
  | cons t ts ih =>
    intro hs
    obtain ⟨hts, hsts⟩ := List.sorted_cons.mp hs
    rw [insertSec]
    by_cases hlt : t.name.data < s.name.data
    · rw [if_pos hlt]
      refine List.sorted_cons.mpr ⟨?_, ih hsts⟩
      intro b hb
      have hb' : b ∈ s :: ts := (insertSec_perm s ts).mem_iff.mp hb
      rcases List.mem_cons.mp hb' with rfl | hbts
      · exact le_of_lt hlt
      · exact hts b hbts
    · rw [if_neg hlt]
      have hle : secLe s t := le_of_not_lt hlt
      refine List.sorted_cons.mpr ⟨?_, hs⟩
      intro b hb
      rcases List.mem_cons.mp hb with rfl | hbts
      · exact hle
      · exact le_trans hle (hts b hbts)

/-- The section sort sorts ascending by display name. -/
theorem sortSections_sorted : ∀ l, List.Sorted secLe (sortSections l) := by
  intro l
  induction l with
  | nil => simp [sortSections]
  | cons s ss ih =>
    rw [sortSections]
    exact insertSec_sorted s (sortSections ss) ih

/-- Insertion is stable: restricted to any one display name, the inserted
section lands in front exactly as if it had been pushed on top. -/
theorem insertSec_filter (s : Section) (n : String) :
    ∀ l, (insertSec s l).filter (fun x => x.name == n)
      = ((s :: l).filter (fun x => x.name == n)) := by
  intro l
  induction l with
  | nil => rfl
  | cons t ts ih =>
    rw [insertSec]
    by_cases hlt : t.name.data < s.name.data
    · rw [if_pos hlt]
      by_cases hs : (s.name == n) = true <;> by_cases ht : (t.name == n) = true
      · exfalso
        have hs' : s.name = n := by rwa [beq_iff_eq] at hs
        have ht' : t.name = n := by rwa [beq_iff_eq] at ht
        rw [hs', ht'] at hlt
        exact lt_irrefl _ hlt
      · simp [List.filter_cons, hs, ht, ih]
      · simp [List.filter_cons, hs, ht, ih]
      · simp [List.filter_cons, hs, ht, ih]
    · rw [if_neg hlt]

/-- The section sort is stable: filtering on any one display name yields
the members of the pre-sort list in their original order. -/
theorem sortSections_filter (n : String) :
    ∀ l, (sortSections l).filter (fun x => x.name == n)
      = l.filter (fun x => x.name == n) := by
  intro l
  induction l with
  | nil => rfl
  | cons s ss ih =>
    rw [sortSections, insertSec_filter s n (sortSections ss)]
    simp only [List.filter_cons]
    rw [ih]

/-- The section-collection fold only appends to its accumulator. -/
theorem foldlM_secStep_shift :
    ∀ (cs : List Elem) (a : List Section),
      cs.foldlM secStep a = (cs.foldlM secStep []).map (fun l => a ++ l) := by
  intro cs
  induction cs with
  | nil => intro a; simp [Except.map, exPure]
  | cons c cs ih =>
    intro a
    rw [List.foldlM_cons, List.foldlM_cons]
    by_cases ht : (c.tag == "sectiondef") = true
    · simp only [secStep, ht, if_true]
      cases hp : parseSection c with
      | error e => simp [hp, exBind_error, Except.map]
      | ok s =>
        simp only [hp, exBind_ok, exPure]
        rw [List.nil_append, ih (a ++ [s]), ih [s]]
        cases hrec : cs.foldlM secStep [] with
        | error e => simp [Except.map]
        | ok l => simp [Except.map, List.append_assoc]
    · simp only [secStep, ht, Bool.false_eq_true, if_false, exPure]
      rw [exBind_ok, exBind_ok]
      exact ih a

/-- What one iteration of the tag loop does to the collected sections:
either the tag is a sectiondef and its parsed section is appended, or the
sections are untouched. -/
theorem processTag_sections (fp hsp : String) (d0 d1 : ClassDoc) (c : Elem)
    (hp : processTag fp hsp d0 c = .ok d1) :
    ((c.tag == "sectiondef") = true
      ∧ ∃ s, parseSection c = .ok s
        ∧ d1.sections = d0.sections ++ [s])
    ∨ ((c.tag == "sectiondef") = false ∧ d1.sections = d0.sections) := by
  rw [processTag] at hp
  by_cases h1 : (c.tag == "briefdescription") = true
  · rw [if_pos h1, exPure] at hp
    right
    have ht : c.tag = "briefdescription" := by rwa [beq_iff_eq] at h1
    refine ⟨by simp [ht], ?_⟩
    rw [← Except.ok.inj hp]
  · rw [if_neg h1] at hp
    by_cases h2 : (c.tag == "compoundname") = true
    · rw [if_pos h2] at hp
      right
      have ht : c.tag = "compoundname" := by rwa [beq_iff_eq] at h2
      refine ⟨by simp [ht], ?_⟩
      cases htext : c.text with
      | none => rw [htext] at hp; exact Except.noConfusion hp
      | some t =>
        simp only [htext] at hp
        rw [exPure] at hp
        rw [← Except.ok.inj hp]
    · rw [if_neg h2] at hp
      by_cases h3 : (c.tag == "detaileddescription") = true
      · rw [if_pos h3, exPure] at hp
        right
        have ht : c.tag = "detaileddescription" := by rwa [beq_iff_eq] at h3
        refine ⟨by simp [ht], ?_⟩
        rw [← Except.ok.inj hp]
      · rw [if_neg h3] at hp
        by_cases h4 : (c.tag == "location") = true
        · rw [if_pos h4] at hp
          right
          have ht : c.tag = "location" := by rwa [beq_iff_eq] at h4
          refine ⟨by simp [ht], ?_⟩
          cases hf : c.getAttr "file" with
          | error e => rw [hf, exBind_error] at hp; exact Except.noConfusion hp
          | ok f =>
            rw [hf, exBind_ok, exPure] at hp
            rw [← Except.ok.inj hp]
        · rw [if_neg h4] at hp
          by_cases h5 : (c.tag == "sectiondef") = true
          · rw [if_pos h5] at hp
            left
            refine ⟨h5, ?_⟩
            cases hs : parseSection c with
            | error e =>
              rw [hs, exBind_error] at hp
              exact Except.noConfusion hp
            | ok s =>
              rw [hs, exBind_ok, exPure] at hp
              exact ⟨s, rfl, by rw [← Except.ok.inj hp]⟩
          · rw [if_neg h5, exPure] at hp
            right
            refine ⟨by rwa [← Bool.not_eq_true], ?_⟩
            rw [← Except.ok.inj hp]

/-- When the whole tag loop succeeds, the resulting sections are the
initial ones followed by the collected sections in document order. -/
theorem foldlM_processTag_sections (fp hsp : String) :
    ∀ (cs : List Elem) (d0 d : ClassDoc),
      cs.foldlM (processTag fp hsp) d0 = .ok d →
      ∃ l, secResults cs = .ok l ∧ d.sections = d0.sections ++ l := by
  intro cs
  induction cs with
  | nil =>
    intro d0 d h
    rw [List.foldlM_nil, exPure] at h
    rw [← Except.ok.inj h]
    exact ⟨[], rfl, by simp⟩
  | cons c cs ih =>
    intro d0 d h
    rw [List.foldlM_cons] at h
    obtain ⟨d1, hp, h⟩ := exBind_ok_inv h
    obtain ⟨l, hl, hsec⟩ := ih d1 d h
    rw [secResults] at hl
    rcases processTag_sections fp hsp d0 d1 c hp with
      ⟨htag, s, hps, hsec1⟩ | ⟨htag, hsec1⟩
    · refine ⟨s :: l, ?_, ?_⟩
      · rw [secResults, List.foldlM_cons]
        simp only [secStep, htag, if_true, hps, exBind_ok, exPure]
        rw [List.nil_append, foldlM_secStep_shift, hl]
        simp [Except.map]
      · rw [hsec, hsec1]
        simp [List.append_assoc]
    · refine ⟨l, ?_, by rw [hsec, hsec1]⟩
      rw [secResults, List.foldlM_cons]
      simp only [secStep, htag, Bool.false_eq_true, if_false, exPure]
      rw [exBind_ok]
      exact hl

/-- C7: every ClassDocument built by the reader has its sections sorted
ascending by display name under the case-sensitive ordinal (code point)
order, the sort is stable — filtering the sorted sequence on any one
display name returns those sections in their pre-sort document order — and
the sorted sequence holds exactly the sections collected from the record
(each with its members untouched, in document order, as parseSection built
them). -/
theorem reader_sections_sorted_stable :
    ∀ (fp hsp : String) (tree : Elem) (d : ClassDoc),
      readClassDoc fp hsp tree = .ok d →
      List.Sorted secLe d.sections
      ∧ ∃ root, tree.findChild "compounddef" = some root
        ∧ ∃ l, secResults root.children = .ok l
          ∧ d.sections = sortSections l
          ∧ (∀ n, d.sections.filter (fun s => s.name == n)
              = l.filter (fun s => s.name == n))
          ∧ (∀ s, s ∈ d.sections ↔ s ∈ l) := by
  intro fp hsp tree d h
  cases hroot : tree.findChild "compounddef" with
  | none =>
    simp only [readClassDoc, hroot] at h
    exact Except.noConfusion h
  | some root =>
    simp only [readClassDoc, hroot] at h
    obtain ⟨kv, hk, h⟩ := exBind_ok_inv h
    obtain ⟨lv, hlang, h⟩ := exBind_ok_inv h
    obtain ⟨d1, hfold, h⟩ := exBind_ok_inv h
    rw [exPure] at h
    obtain rfl := Except.ok.inj h
    obtain ⟨l, hl, hsec⟩ :=
      foldlM_processTag_sections fp hsp root.children _ d1 hfold
    have hsec' : d1.sections = l := by simpa using hsec
    refine ⟨?_, root, rfl, l, hl, ?_, ?_, ?_⟩
    · show List.Sorted secLe (sortSections d1.sections)
      rw [hsec']
      exact sortSections_sorted l
    · show sortSections d1.sections = sortSections l
      rw [hsec']
    · intro n
      show (sortSections d1.sections).filter _ = _
      rw [hsec', sortSections_filter]
    · intro s
      show s ∈ sortSections d1.sections ↔ s ∈ l
      rw [hsec']
      exact (sortSections_perm l).mem_iff

/-- Witness for reader_sections_sorted_stable on a record whose two
sections arrive in reverse display-name order. -/
theorem reader_sections_sorted_stable_witness :
    readClassDoc "classA.xml" "" c7tree = .ok c7doc
    ∧ (List.Sorted secLe c7doc.sections
      ∧ ∃ root, c7tree.findChild "compounddef" = some root
        ∧ ∃ l, secResults root.children = .ok l
          ∧ c7doc.sections = sortSections l
          ∧ (∀ n, c7doc.sections.filter (fun s => s.name == n)
              = l.filter (fun s => s.name == n))
          ∧ (∀ s, s ∈ c7doc.sections ↔ s ∈ l)) :=
  ⟨rfl, reader_sections_sorted_stable "classA.xml" "" c7tree c7doc rfl⟩
